import Mathlib

/-
  Verification of the pkmn engine graphics: 2D batching and color code.

  Shallow embedding of:
    src/engine/src/graphics/color.rs   (Color, from_hex, fade, gamma conversion)
    src/engine/src/graphics/mod.rs     (State, push_shape, draw_square,
                                        draw_rectangle, draw_line)

  Machine integers: u8/u16 are modeled as ℕ with explicit `% 2^w` where the
  source can overflow.  f32/f64 arithmetic on geometry is idealized as real
  arithmetic; the two places where IEEE special values matter (division by a
  zero denominator in `draw_line`, the saturating float→u8 `as` cast in
  `fade`) are modeled explicitly, per IEEE-754 / Rust reference semantics.
-/

/-- Struct `Color` from color.rs: four 8-bit channels.  u8 is modeled as ℕ; every
value the code constructs lies in [0,255]. -/
structure Color where
  r : ℕ
  g : ℕ
  b : ℕ
  a : ℕ
deriving DecidableEq

namespace Color

/-- Source `Color::from_rgb`. -/
def from_rgb (r g b a : ℕ) : Color := ⟨r, g, b, a⟩

/-- Source `Color::is_valid`: hex digit lookup (uppercase digits only, exactly the
sixteen arms of the source `match`). -/
def is_valid (c : Char) : Option ℕ :=
  match c with
  | '0' => Option.some 0
  | '1' => Option.some 1
  | '2' => Option.some 2
  | '3' => Option.some 3
  | '4' => Option.some 4
  | '5' => Option.some 5
  | '6' => Option.some 6
  | '7' => Option.some 7
  | '8' => Option.some 8
  | '9' => Option.some 9
  | 'A' => Option.some 10
  | 'B' => Option.some 11
  | 'C' => Option.some 12
  | 'D' => Option.some 13
  | 'E' => Option.some 14
  | 'F' => Option.some 15
  | _ => Option.none

/-- Source `Color::next_two`: pulls two chars off the iterator (modeled as explicit
list state), failing with "invalid" when the iterator is exhausted and
"invalid character" when a char is not a hex digit, in source evaluation
order. -/
def next_two : List Char → Except String (ℕ × List Char)
  | [] => Except.error "invalid"
  | c1 :: tl =>
    match is_valid c1 with
    | none => Except.error "invalid character"
    | some hi =>
      match tl with
      | [] => Except.error "invalid"
      | c2 :: tl2 =>
        match is_valid c2 with
        | none => Except.error "invalid character"
        | some lo => Except.ok (hi * 16 + lo, tl2)

/-- The body of `Color::from_hex` after the slice and `to_uppercase`: three
mandatory `next_two?` reads for r,g,b, then an optional read for a with
`unwrap_or(255)`. -/
def parse_rgba (cs : List Char) : Except String Color :=
  match next_two cs with
  | Except.error e => Except.error e
  | Except.ok (r, cs1) =>
    match next_two cs1 with
    | Except.error e => Except.error e
    | Except.ok (g, cs2) =>
      match next_two cs2 with
      | Except.error e => Except.error e
      | Except.ok (b, cs3) =>
        Except.ok ⟨r, g, b,
          match next_two cs3 with
          | Except.ok (a, _) => a
          | Except.error _ => 255⟩

/-- Source `Color::from_hex`.  The byte slice `&hex[1..]` panics when the string is
empty (byte index 1 out of bounds) or when its first char is multibyte (byte
index 1 is not a char boundary); a panic is modeled as `none`.  The Rust
`to_uppercase` is modeled per char by `Char.toUpper`, which is exact on ASCII
characters (the Rust ASCII fast path is the same 1-to-1 mapping).  On
non-ASCII characters the Rust full Unicode case mapping can expand one char
to several (e.g. the ligature U+FB00 becomes two hex digits) and is not
modeled, so every theorem that quantifies over inputs of this function
carries an ASCII hypothesis; the model is only evaluated inside that
domain (plus the empty string, where the panic precedes the uppercasing). -/
def from_hex (hex : String) : Option (Except String Color) :=
  match hex.data with
  | [] => none
  | c :: rest =>
    if c.utf8Size = 1 then some (parse_rgba (rest.map Char.toUpper)) else none

end Color

/-- The f32 argument of `Color::fade`.  Every finite f32 is a (dyadic)
rational, and multiplying by 256.0 and flooring are exact on it, so finite
values carry a ℚ; NaN and the two infinities are the IEEE special values the
saturating cast treats specially. -/
inductive F32 where
  | nan : F32
  | inf : F32
  | ninf : F32
  | fin : ℚ → F32

/-- Models `(alpha * 256.0).floor() as u8`: the Rust float→u8 `as` cast saturates to
[0,255] and sends NaN to 0 (Rust reference, float-to-int casts). -/
def floorTimes256ToU8 : F32 → ℕ
  | F32.nan => 0
  | F32.inf => 255
  | F32.ninf => 0
  | F32.fin q =>
    if ⌊q * 256⌋ < 0 then 0
    else if 255 < ⌊q * 256⌋ then 255
    else (⌊q * 256⌋).toNat

/-- Source `Color::fade`: replaces the alpha channel, r,g,b untouched. -/
def Color.fade (c : Color) (alpha : F32) : Color :=
  { c with a := floorTimes256ToU8 alpha }

/-- Struct `wgpu::Color`: four f64 channels, idealized as reals. -/
structure WColor where
  r : ℝ
  g : ℝ
  b : ℝ
  a : ℝ

/-- Source `cv` from color.rs: `(n / 256.0).powf(2.2)`. -/
noncomputable def cv (n : ℝ) : ℝ := (n / 256) ^ (2.2 : ℝ)

/-- The impl `From<Color> for wgpu::Color`: `cv` applied to each channel
independently, alpha included. -/
noncomputable def wgpuColorOf (c : Color) : WColor :=
  ⟨cv (c.r : ℝ), cv (c.g : ℝ), cv (c.b : ℝ), cv (c.a : ℝ)⟩

/-- Struct `Vertex` from buffers: position `[f32;3]`, color `[f32;4]` (the f64→f32
casts from `wgpu::Color` are idealized as identity on reals). -/
structure Vertex where
  position : ℝ × ℝ × ℝ
  color : ℝ × ℝ × ℝ × ℝ

/-- The geometry-accumulation fields of graphics `State`: `vertices:
Vec<Vertex>` and `indices: Vec<u16>`.  The remaining fields are GPU/window
handles and the font subsystem, which no operation below reads or writes. -/
structure State where
  vertices : List Vertex
  indices : List ℕ

/-- Source `State::push_shape`: `let len = self.vertices.len() as u16` (the cast is
`% 2^16`), each local index is pushed as the wrapping u16 sum `i + len`, then
the vertices are appended.  (In every reachable call the local index is ≤ 3
and `len % 2^16` is a multiple of 4, so `i + len` never wraps past the cast
and debug and release builds agree.) -/
def State.push_shape (s : State) (vs : List Vertex) (is : List ℕ) : State :=
  { s with
    indices := s.indices ++ is.map (fun i => (i + s.vertices.length % 65536) % 65536),
    vertices := s.vertices ++ vs }

/-- The `[f32;4]` color array built at the top of each draw function:
`wgpu::Color::from(color)` cast channel-wise to f32. -/
noncomputable def colorArr (c : Color) : ℝ × ℝ × ℝ × ℝ :=
  ((wgpuColorOf c).r, (wgpuColorOf c).g, (wgpuColorOf c).b, (wgpuColorOf c).a)

/-- Source `State::draw_square`: four corners from origin + width (z = 0),
local indices 0,2,3,3,1,0. -/
noncomputable def State.draw_square (s : State) (x y width : ℝ) (c : Color) : State :=
  let color := colorArr c
  s.push_shape
    [⟨(x, y, 0), color⟩,
     ⟨(x + width, y, 0), color⟩,
     ⟨(x, y + width, 0), color⟩,
     ⟨(x + width, y + width, 0), color⟩]
    [0, 2, 3, 3, 1, 0]

/-- Source `State::draw_rectangle`: same as `draw_square` with an independent
height. -/
noncomputable def State.draw_rectangle (s : State) (x y width height : ℝ) (c : Color) : State :=
  let color := colorArr c
  s.push_shape
    [⟨(x, y, 0), color⟩,
     ⟨(x + width, y, 0), color⟩,
     ⟨(x, y + height, 0), color⟩,
     ⟨(x + width, y + height, 0), color⟩]
    [0, 2, 3, 3, 1, 0]

/-- The angle computation `((y2 - y1) / (x2 - x1)).atan()` of
`State::draw_line`, under IEEE-754 f32 semantics.  When `x1 = x2` the
denominator is `+0` (a − a is positive zero under round-to-nearest), so a
positive numerator gives `+∞` and `atan(+∞) = π/2`, a negative numerator
gives `-∞` and `atan(-∞) = -π/2`; `0/0` is NaN and is modeled as 0 (no claim
reaches it).  Away from a zero denominator this is the real arctangent. -/
noncomputable def lineAngle (x1 y1 x2 y2 : ℝ) : ℝ :=
  if x2 - x1 = 0 then
    if 0 < y2 - y1 then Real.pi / 2
    else if y2 - y1 < 0 then -(Real.pi / 2)
    else 0
  else Real.arctan ((y2 - y1) / (x2 - x1))

/-- Source `State::draw_line`: a thick quad; perpendicular offsets from the angle
rotated by 90°, corners in the array order of the source
`e2+p, e1+p, e2-p, e1-p`, local indices 0,2,3,3,1,0. -/
noncomputable def State.draw_line
    (s : State) (x1 y1 x2 y2 thickness : ℝ) (c : Color) : State :=
  let color := colorArr c
  let angle := lineAngle x1 y1 x2 y2
  let pangle := angle + Real.pi / 2
  let r := thickness / 2
  let pdx := Real.cos pangle * r
  let pdy := Real.sin pangle * r
  s.push_shape
    [⟨(x2 + pdx, y2 + pdy, 0), color⟩,
     ⟨(x1 + pdx, y1 + pdy, 0), color⟩,
     ⟨(x2 - pdx, y2 - pdy, 0), color⟩,
     ⟨(x1 - pdx, y1 - pdy, 0), color⟩]
    [0, 2, 3, 3, 1, 0]

/-- One shape-drawing call through the public surface. -/
inductive DrawCall where
  | square (x y width : ℝ) (c : Color)
  | rect (x y width height : ℝ) (c : Color)
  | line (x1 y1 x2 y2 thickness : ℝ) (c : Color)

/-- Dispatch one `DrawCall` on a state. -/
noncomputable def applyCall (s : State) : DrawCall → State
  | DrawCall.square x y w c => s.draw_square x y w c
  | DrawCall.rect x y w h c => s.draw_rectangle x y w h c
  | DrawCall.line a b u v t c => s.draw_line a b u v t c

/-- Run a sequence of draw calls from the empty geometry buffer (the state
right after context init or a frame clear). -/
noncomputable def run (cs : List DrawCall) : State :=
  cs.foldl applyCall ⟨[], []⟩

/-- Hex-digit test, written over the already-uppercased char stream. -/
def hexDigit (c : Char) : Bool := (Color.is_valid c).isSome

/-- The next two chars exist and are hex digits. -/
def twoHexAt (cs : List Char) : Bool :=
  match cs with
  | c1 :: c2 :: _ => hexDigit c1 && hexDigit c2
  | _ => false

/-- The first six chars exist and are hex digits. -/
def firstSixHex (cs : List Char) : Bool :=
  twoHexAt cs && twoHexAt (cs.drop 2) && twoHexAt (cs.drop 4)

/-- Well-formedness as the claim words it (spec side, for comparison with the
code): a leading hash char followed by exactly 6 or 8 hex digits,
case-insensitive. -/
def specWellFormed (s : String) : Bool :=
  match s.data with
  | '#' :: tl =>
    (tl.length == 6 || tl.length == 8) && tl.all (fun c => hexDigit c.toUpper)
  | _ => false

/-- C9: `from_hex` on the empty string panics (`&hex[1..]` indexes out of
bounds), so the parse-error contract is not total over all string inputs. -/
theorem from_hex_empty_panics : Color.from_hex "" = none := rfl

/-- C5: `from_hex "#292828"` is `Ok {r:41,g:40,b:40,a:255}` (alpha defaults
to 255 when omitted), `from_hex "#29282800"` parses alpha 0, and hex digits
are case-insensitive. -/
theorem from_hex_examples :
    Color.from_hex "#292828" = some (Except.ok ⟨41, 40, 40, 255⟩) ∧
    Color.from_hex "#29282800" = some (Except.ok ⟨41, 40, 40, 0⟩) ∧
    Color.from_hex "#aB12cD" = Color.from_hex "#AB12CD" ∧
    Color.from_hex "#aB12cD" = some (Except.ok ⟨171, 18, 205, 255⟩) :=
  ⟨rfl, rfl, rfl, rfl⟩

/-- C10: `draw_square(x, y, width, color)` has exactly the same effect on the
state as `draw_rectangle(x, y, width, width, color)`. -/
theorem draw_square_eq_draw_rectangle (s : State) (x y w : ℝ) (c : Color) :
    s.draw_square x y w c = s.draw_rectangle x y w w c := rfl

/-- C6: for alpha in [0,1) `fade` replaces the alpha channel by
`floor(alpha * 256)` (which lies in [0,255], so the saturating cast is the
identity) and leaves r,g,b unchanged; `fade(0.5)` sets alpha to 128. -/
theorem fade_in_range (c : Color) (q : ℚ) (h0 : 0 ≤ q) (h1 : q < 1) :
    Color.fade c (F32.fin q) = ⟨c.r, c.g, c.b, (⌊q * 256⌋).toNat⟩ ∧
    Color.fade c (F32.fin (1/2)) = ⟨c.r, c.g, c.b, 128⟩ := by
  constructor
  · have hq0 : (0 : ℚ) ≤ q * 256 := by positivity
    have hfl0 : (0 : ℤ) ≤ ⌊q * 256⌋ := Int.floor_nonneg.mpr hq0
    have hqlt : q * 256 < 256 := by nlinarith
    have hflt : ⌊q * 256⌋ < (256 : ℤ) := by
      exact_mod_cast Int.floor_lt.mpr (by exact_mod_cast hqlt)
    simp only [Color.fade, floorTimes256ToU8]
    rw [if_neg (by omega), if_neg (by omega)]
  · simp only [Color.fade, floorTimes256ToU8]
    norm_num
    rfl

theorem fade_in_range_witness :
    Color.fade ⟨1, 2, 3, 4⟩ (F32.fin (1/2)) = ⟨1, 2, 3, 128⟩ :=
  (fade_in_range ⟨1, 2, 3, 4⟩ (1/2) (by norm_num) (by norm_num)).2

/-- C8: the out-of-range behavior of `fade` is the defined saturating float→u8
cast: alpha with `alpha * 256 ≥ 256` yields 255, a negative floor yields 0,
NaN yields 0; r,g,b are unchanged in every case. -/
theorem fade_saturates (c : Color) (q : ℚ) :
    Color.fade c F32.nan = ⟨c.r, c.g, c.b, 0⟩ ∧
    (256 ≤ q * 256 → Color.fade c (F32.fin q) = ⟨c.r, c.g, c.b, 255⟩) ∧
    (⌊q * 256⌋ < 0 → Color.fade c (F32.fin q) = ⟨c.r, c.g, c.b, 0⟩) := by
  refine ⟨rfl, ?_, ?_⟩
  · intro h
    have hfl : (256 : ℤ) ≤ ⌊q * 256⌋ := by
      exact_mod_cast Int.le_floor.mpr (by exact_mod_cast h)
    simp only [Color.fade, floorTimes256ToU8]
    rw [if_neg (by omega), if_pos (by omega)]
  · intro h
    simp only [Color.fade, floorTimes256ToU8]
    rw [if_pos h]

theorem fade_saturates_witness :
    Color.fade ⟨5, 6, 7, 8⟩ F32.nan = ⟨5, 6, 7, 0⟩ ∧
    Color.fade ⟨5, 6, 7, 8⟩ (F32.fin 2) = ⟨5, 6, 7, 255⟩ ∧
    Color.fade ⟨5, 6, 7, 8⟩ (F32.fin (-1)) = ⟨5, 6, 7, 0⟩ :=
  ⟨(fade_saturates ⟨5, 6, 7, 8⟩ 0).1,
   (fade_saturates ⟨5, 6, 7, 8⟩ 2).2.1 (by norm_num),
   (fade_saturates ⟨5, 6, 7, 8⟩ (-1)).2.2 (by norm_num)⟩

/-- C3 counterexample: the conversion divides by 256, not 255, so channel
value 255 does not convert to 1.0: it gives `(255/256)^2.2 < 1`.  Also the
result differs from the claimed `(v/255)^2.2` at v = 255, which would be
exactly 1. -/
theorem gamma_255_ne_one :
    (wgpuColorOf ⟨255, 255, 255, 255⟩).r ≠ 1 ∧
    (wgpuColorOf ⟨255, 255, 255, 255⟩).r ≠ ((255 : ℝ) / 255) ^ (2.2 : ℝ) := by
  have hlt : ((255 : ℝ) / 256) ^ (2.2 : ℝ) < 1 :=
    Real.rpow_lt_one (by norm_num) (by norm_num) (by norm_num)
  have h1 : ((255 : ℝ) / 255) ^ (2.2 : ℝ) = 1 := by
    norm_num
  constructor
  · show cv ((255 : ℕ) : ℝ) ≠ 1
    simp only [cv]
    push_cast
    exact ne_of_lt hlt
  · show cv ((255 : ℕ) : ℝ) ≠ _
    simp only [cv]
    push_cast
    rw [h1]
    exact ne_of_lt hlt

/-- C3 amended: for every channel value v in [0,255] the conversion maps v to
`(v/256)^2.2` (not `(v/255)^2.2`), applied per channel independently with
alpha included; every channel value, 255 included, converts to a value
strictly below 1.0. -/
theorem gamma_decode (v : ℕ) (h : v ≤ 255) :
    cv (v : ℝ) = ((v : ℝ) / 256) ^ (2.2 : ℝ) ∧
    cv (v : ℝ) < 1 ∧
    ∀ c : Color, wgpuColorOf c = ⟨cv (c.r : ℝ), cv (c.g : ℝ), cv (c.b : ℝ), cv (c.a : ℝ)⟩ := by
  refine ⟨rfl, ?_, fun c => rfl⟩
  have hv : (v : ℝ) ≤ 255 := by exact_mod_cast h
  have hlt : (v : ℝ) / 256 < 1 := by
    rw [div_lt_one (by norm_num)]
    linarith
  exact Real.rpow_lt_one (by positivity) hlt (by norm_num)

theorem gamma_decode_witness : cv ((255 : ℕ) : ℝ) < 1 :=
  (gamma_decode 255 (by norm_num)).2.1

lemma next_two_isOk (cs : List Char) : (Color.next_two cs).isOk = twoHexAt cs := by
  rcases cs with _ | ⟨c1, _ | ⟨c2, tl⟩⟩
  · rfl
  · cases h1 : Color.is_valid c1 <;>
      simp [Color.next_two, twoHexAt, hexDigit, h1, Except.isOk, Except.toBool]
  · cases h1 : Color.is_valid c1 <;> cases h2 : Color.is_valid c2 <;>
      simp [Color.next_two, twoHexAt, hexDigit, h1, h2, Except.isOk, Except.toBool]

lemma next_two_ok_tail (cs : List Char) (v : ℕ) (tl : List Char)
    (h : Color.next_two cs = Except.ok (v, tl)) : tl = cs.drop 2 := by
  rcases cs with _ | ⟨c1, _ | ⟨c2, tl0⟩⟩
  · simp [Color.next_two] at h
  · cases h1 : Color.is_valid c1 <;> simp [Color.next_two, h1] at h
  · cases h1 : Color.is_valid c1 <;> cases h2 : Color.is_valid c2 <;>
      simp [Color.next_two, h1, h2] at h
    simp [h.2]

lemma parse_rgba_isOk (cs : List Char) :
    (Color.parse_rgba cs).isOk = firstSixHex cs := by
  unfold Color.parse_rgba
  cases h1 : Color.next_two cs with
  | error e =>
    have t1 : twoHexAt cs = false := by rw [← next_two_isOk cs, h1]; rfl
    simp [firstSixHex, t1, Except.isOk, Except.toBool]
  | ok p =>
    obtain ⟨r, cs1⟩ := p
    have t1 : twoHexAt cs = true := by rw [← next_two_isOk cs, h1]; rfl
    have hcs1 : cs1 = cs.drop 2 := next_two_ok_tail cs r cs1 h1
    cases h2 : Color.next_two cs1 with
    | error e =>
      have t2 : twoHexAt (cs.drop 2) = false := by
        rw [← hcs1, ← next_two_isOk cs1, h2]; rfl
      simp [firstSixHex, t1, t2, h2, Except.isOk, Except.toBool]
    | ok p2 =>
      obtain ⟨g, cs2⟩ := p2
      have t2 : twoHexAt (cs.drop 2) = true := by
        rw [← hcs1, ← next_two_isOk cs1, h2]; rfl
      have hcs2 : cs2 = cs.drop 4 := by
        have := next_two_ok_tail cs1 g cs2 h2
        rw [this, hcs1, List.drop_drop]
      cases h3 : Color.next_two cs2 with
      | error e =>
        have t3 : twoHexAt (cs.drop 4) = false := by
          rw [← hcs2, ← next_two_isOk cs2, h3]; rfl
        simp [firstSixHex, t1, t2, t3, h2, h3, Except.isOk, Except.toBool]
      | ok p3 =>
        obtain ⟨b, cs3⟩ := p3
        have t3 : twoHexAt (cs.drop 4) = true := by
          rw [← hcs2, ← next_two_isOk cs2, h3]; rfl
        simp [firstSixHex, t1, t2, t3, h2, h3, Except.isOk, Except.toBool]

lemma except_isOk_false_iff (x : Except String Color) :
    x.isOk = false ↔ ∃ e, x = Except.error e := by
  cases x <;> simp [Except.isOk, Except.toBool]

/-- C4 counterexample: `"!292828"` is malformed in the sense of the claim (no
leading hash), yet `from_hex` returns `Ok {r:41,g:40,b:40,a:255}` — the
leading character is dropped by `&hex[1..]` without ever being checked. -/
theorem from_hex_malformed_ok :
    specWellFormed "!292828" = false ∧
    Color.from_hex "!292828" = some (Except.ok ⟨41, 40, 40, 255⟩) :=
  ⟨rfl, rfl⟩

/-- C4 amended: `from_hex` never validates the leading character and ignores
trailing content; on any nonempty input made of ASCII characters (where the
per-char model of the Rust uppercasing is exact — full Unicode uppercasing
can expand ligatures such as U+FB00 into hex digits, which is outside this
statement) it returns a parse error exactly when the first six characters
after dropping the first character and uppercasing do not exist or are not
all hex digits.  (So e.g. a wrong lead character, a 7-digit body, or trailing
garbage all still parse Ok.) -/
theorem from_hex_err_characterization (c : Char) (rest : List Char)
    (h : c.utf8Size = 1) (_hascii : ∀ ch ∈ rest, ch.toNat < 128) :
    (∃ e, Color.from_hex (String.mk (c :: rest)) = some (Except.error e)) ↔
      firstSixHex (rest.map Char.toUpper) = false := by
  have hfh : Color.from_hex ⟨c :: rest⟩ = some (Color.parse_rgba (rest.map Char.toUpper)) := by
    simp [Color.from_hex, h]
  show (∃ e, Color.from_hex ⟨c :: rest⟩ = some (Except.error e)) ↔ _
  rw [hfh]
  constructor
  · rintro ⟨e, he⟩
    rw [← parse_rgba_isOk, (except_isOk_false_iff _).mpr ⟨e, by exact Option.some_injective _ he⟩]
  · intro hs
    rw [← parse_rgba_isOk] at hs
    obtain ⟨e, he⟩ := (except_isOk_false_iff _).mp hs
    exact ⟨e, by rw [he]⟩

theorem from_hex_err_characterization_witness :
    ∃ e, Color.from_hex (String.mk ('#' :: "12345g".data)) = some (Except.error e) :=
  (from_hex_err_characterization '#' "12345g".data (by decide) (by decide)).mpr (by decide)

lemma applyCall_vertices_len (s : State) (d : DrawCall) :
    (applyCall s d).vertices.length = s.vertices.length + 4 := by
  cases d <;>
    simp [applyCall, State.draw_square, State.draw_rectangle, State.draw_line,
      State.push_shape]

lemma applyCall_indices (s : State) (d : DrawCall) :
    (applyCall s d).indices =
      s.indices ++
        [0, 2, 3, 3, 1, 0].map (fun i => (i + s.vertices.length % 65536) % 65536) := by
  cases d <;> rfl

lemma new_index_lt (n l : ℕ) (hl : l ≤ 3) :
    (l + (4 * n) % 65536) % 65536 < 4 * (n + 1) := by
  omega

lemma run_inv_aux (cs : List DrawCall) (s : State) (n : ℕ)
    (h1 : s.vertices.length = 4 * n) (h2 : s.indices.length = 6 * n)
    (h3 : ∀ i ∈ s.indices, i < 4 * n) :
    (List.foldl applyCall s cs).vertices.length = 4 * (n + cs.length) ∧
    (List.foldl applyCall s cs).indices.length = 6 * (n + cs.length) ∧
    ∀ i ∈ (List.foldl applyCall s cs).indices, i < 4 * (n + cs.length) := by
  induction cs generalizing s n with
  | nil => simpa using ⟨h1, h2, h3⟩
  | cons d ds ih =>
    simp only [List.foldl_cons, List.length_cons]
    have hv := applyCall_vertices_len s d
    have hi := applyCall_indices s d
    have h1x : (applyCall s d).vertices.length = 4 * (n + 1) := by omega
    have h2x : (applyCall s d).indices.length = 6 * (n + 1) := by
      rw [hi, List.length_append, h2]
      simp
      omega
    have h3x : ∀ i ∈ (applyCall s d).indices, i < 4 * (n + 1) := by
      intro i hmem
      rw [hi] at hmem
      rcases List.mem_append.mp hmem with hold | hnew
      · exact lt_of_lt_of_le (h3 i hold) (by omega)
      · rcases List.mem_map.mp hnew with ⟨l, hl, rfl⟩
        have hl3 : l ≤ 3 := by
          simp at hl
          omega
        rw [h1]
        exact new_index_lt n l hl3
    obtain ⟨a1, a2, a3⟩ := ih (applyCall s d) (n + 1) h1x h2x h3x
    refine ⟨a1.trans (by ring_nf), a2.trans (by ring_nf), ?_⟩
    intro i hmem
    have := a3 i hmem
    omega

/-- C1: after any sequence of N shapes through `draw_square`,
`draw_rectangle` or `draw_line` (all of which go through `push_shape`), the
geometry buffer holds exactly 4N vertices and 6N indices, and every index
value is < 4N; `push_shape` adds the vertex count taken before the append
(as u16) to each local index. -/
theorem push_shape_invariant (cs : List DrawCall) :
    (run cs).vertices.length = 4 * cs.length ∧
    (run cs).indices.length = 6 * cs.length ∧
    ∀ i ∈ (run cs).indices, i < 4 * cs.length := by
  have h := run_inv_aux cs ⟨[], []⟩ 0 rfl rfl (by intro i h; simp at h)
  simpa [run] using h

theorem push_shape_invariant_witness :
    (0 : ℕ) ∈ (run [DrawCall.square 0 0 1 ⟨0, 0, 0, 0⟩]).indices ∧
    (0 : ℕ) < 4 * ([DrawCall.square 0 0 1 ⟨0, 0, 0, 0⟩] : List DrawCall).length := by
  have hmem : (0 : ℕ) ∈ (run [DrawCall.square 0 0 1 ⟨0, 0, 0, 0⟩]).indices := by
    simp [run, applyCall, State.draw_square, State.push_shape]
  exact ⟨hmem, (push_shape_invariant [DrawCall.square 0 0 1 ⟨0, 0, 0, 0⟩]).2.2 0 hmem⟩

/-- C2 counterexample: for the horizontal line (0,0)–(10,0) with thickness 2
the quad corners are x ∈ {0,10}, y ∈ {-1,1}; in the y-down screen
coordinates its top-left, top-right, bottom-left, bottom-right corners are
(0,-1), (10,-1), (0,1), (10,1).  `draw_line` pushes the vertices in the order
(10,1), (0,1), (10,-1), (0,-1) — the first vertex is the bottom-right corner,
not the top-left, so the claimed vertex order fails for `draw_line`. -/
theorem line_vertex_order_ce :
    (State.draw_line ⟨[], []⟩ 0 0 10 0 2 ⟨0, 0, 0, 0⟩).vertices.map Vertex.position =
      [(10, 1, 0), (0, 1, 0), (10, -1, 0), (0, -1, 0)] ∧
    (State.draw_line ⟨[], []⟩ 0 0 10 0 2 ⟨0, 0, 0, 0⟩).vertices.map Vertex.position ≠
      [(0, -1, 0), (10, -1, 0), (0, 1, 0), (10, 1, 0)] := by
  have hangle : lineAngle 0 0 10 0 = 0 := by
    unfold lineAngle
    rw [if_neg (by norm_num)]
    norm_num
  have h : (State.draw_line ⟨[], []⟩ 0 0 10 0 2 ⟨0, 0, 0, 0⟩).vertices.map Vertex.position =
      [(10, 1, 0), (0, 1, 0), (10, -1, 0), (0, -1, 0)] := by
    simp [State.draw_line, State.push_shape, hangle, Real.cos_pi_div_two,
      Real.sin_pi_div_two]
  refine ⟨h, ?_⟩
  rw [h]
  intro hcontra
  have := List.head_eq_of_cons_eq hcontra
  simp [Prod.ext_iff] at this

/-- C2 amended: `draw_square` and `draw_rectangle` push their 4 vertices in
the order top-left, top-right, bottom-left, bottom-right (y-down screen
coordinates: (x,y), (x+w,y), (x,y+h), (x+w,y+h)); `draw_line` pushes, in
order, end2+perp, end1+perp, end2-perp, end1-perp (for a left-to-right
horizontal line: bottom-right, bottom-left, top-right, top-left).  In every
case the 6 local indices appended, before the global offset is added, are
exactly 0,2,3,3,1,0. -/
theorem quad_emission (s : State) (x y w h x1 y1 x2 y2 t : ℝ) (c : Color) :
    (s.draw_square x y w c).vertices =
      s.vertices ++
        [⟨(x, y, 0), colorArr c⟩, ⟨(x + w, y, 0), colorArr c⟩,
         ⟨(x, y + w, 0), colorArr c⟩, ⟨(x + w, y + w, 0), colorArr c⟩] ∧
    (s.draw_square x y w c).indices =
      s.indices ++
        [0, 2, 3, 3, 1, 0].map (fun i => (i + s.vertices.length % 65536) % 65536) ∧
    (s.draw_rectangle x y w h c).vertices =
      s.vertices ++
        [⟨(x, y, 0), colorArr c⟩, ⟨(x + w, y, 0), colorArr c⟩,
         ⟨(x, y + h, 0), colorArr c⟩, ⟨(x + w, y + h, 0), colorArr c⟩] ∧
    (s.draw_rectangle x y w h c).indices =
      s.indices ++
        [0, 2, 3, 3, 1, 0].map (fun i => (i + s.vertices.length % 65536) % 65536) ∧
    (s.draw_line x1 y1 x2 y2 t c).vertices =
      s.vertices ++
        [⟨(x2 + Real.cos (lineAngle x1 y1 x2 y2 + Real.pi / 2) * (t / 2),
           y2 + Real.sin (lineAngle x1 y1 x2 y2 + Real.pi / 2) * (t / 2), 0), colorArr c⟩,
         ⟨(x1 + Real.cos (lineAngle x1 y1 x2 y2 + Real.pi / 2) * (t / 2),
           y1 + Real.sin (lineAngle x1 y1 x2 y2 + Real.pi / 2) * (t / 2), 0), colorArr c⟩,
         ⟨(x2 - Real.cos (lineAngle x1 y1 x2 y2 + Real.pi / 2) * (t / 2),
           y2 - Real.sin (lineAngle x1 y1 x2 y2 + Real.pi / 2) * (t / 2), 0), colorArr c⟩,
         ⟨(x1 - Real.cos (lineAngle x1 y1 x2 y2 + Real.pi / 2) * (t / 2),
           y1 - Real.sin (lineAngle x1 y1 x2 y2 + Real.pi / 2) * (t / 2), 0), colorArr c⟩] ∧
    (s.draw_line x1 y1 x2 y2 t c).indices =
      s.indices ++
        [0, 2, 3, 3, 1, 0].map (fun i => (i + s.vertices.length % 65536) % 65536) :=
  ⟨rfl, rfl, rfl, rfl, rfl, rfl⟩

/-- C7: a vertical line (x1 = x2, y1 ≠ y2) does not fault: under IEEE f32
semantics the ratio with zero denominator is ±∞ and its arctangent the
well-defined angle ±π/2, and `draw_line` pushes four well-defined quad
corners (for y1 < y2 they are the endpoints offset horizontally by
±thickness/2). -/
theorem vertical_line_ok (s : State) (x y1 y2 t : ℝ) (c : Color) (h : y1 ≠ y2) :
    (lineAngle x y1 x y2 = Real.pi / 2 ∨ lineAngle x y1 x y2 = -(Real.pi / 2)) ∧
    (s.draw_line x y1 x y2 t c).vertices.length = s.vertices.length + 4 ∧
    (y1 < y2 →
      (s.draw_line x y1 x y2 t c).vertices.map Vertex.position =
        s.vertices.map Vertex.position ++
          [(x - t / 2, y2, 0), (x - t / 2, y1, 0),
           (x + t / 2, y2, 0), (x + t / 2, y1, 0)]) := by
  have hden : x - x = 0 := sub_self x
  refine ⟨?_, ?_, ?_⟩
  · unfold lineAngle
    rw [if_pos hden]
    rcases lt_or_gt_of_ne h with hlt | hgt
    · left
      rw [if_pos (by linarith)]
    · right
      rw [if_neg (by linarith), if_pos (by linarith)]
  · simp [State.draw_line, State.push_shape]
  · intro hlt
    have hangle : lineAngle x y1 x y2 = Real.pi / 2 := by
      unfold lineAngle
      rw [if_pos hden, if_pos (by linarith)]
    have hpi : lineAngle x y1 x y2 + Real.pi / 2 = Real.pi := by
      rw [hangle]; ring
    simp only [State.draw_line, State.push_shape, hpi, Real.cos_pi, Real.sin_pi]
    simp [Prod.ext_iff]
    ring

theorem vertical_line_ok_witness :
    lineAngle 0 0 0 1 = Real.pi / 2 ∨ lineAngle 0 0 0 1 = -(Real.pi / 2) :=
  (vertical_line_ok ⟨[], []⟩ 0 0 1 2 ⟨0, 0, 0, 0⟩ (zero_ne_one)).1
